import Mathlib

/-!
Verification development for the French-law-mcp citation core.

Shallow embedding of the citation parsing, normalization, matching and
FTS-query-building code:

  * `scripts/lib/parser.ts` — `normalizeArticleNum`, `articleTitle`
  * `src/citation/parser.ts` — the citation parser, validator and the
    formatter's `buildArticleRef`
  * `src/utils/fts-query.ts` — `sanitizeFtsInput`, `buildFtsQueryVariants`

Strings are modelled as `List Char` internally, with `String` wrappers
named after the source functions.  JavaScript regular-expression matching
is modelled by explicit backtracking matchers whose alternative order
mirrors the engine's preference order (lazy/greedy quantifiers,
left-to-right alternation).
-/

set_option autoImplicit false

namespace FrenchLaw

/-! ### Character classes

JavaScript character classes used by the source regexes.  `jsWs` is the
set matched by `\s` (and removed by `String.prototype.trim`). -/

def jsWsCodes : List Nat :=
  [9, 10, 11, 12, 13, 32, 160, 5760,
   8192, 8193, 8194, 8195, 8196, 8197, 8198, 8199, 8200, 8201, 8202,
   8232, 8233, 8239, 8287, 12288, 65279]

def jsWs (c : Char) : Bool := jsWsCodes.contains c.toNat

/-- JS `\d`, i.e. `[0-9]`. -/
def digitB (c : Char) : Bool := 48 ≤ c.toNat && c.toNat ≤ 57

/-- ASCII `[A-Z]`. -/
def upperB (c : Char) : Bool := 65 ≤ c.toNat && c.toNat ≤ 90

/-- ASCII `[a-z]`. -/
def lowerB (c : Char) : Bool := 97 ≤ c.toNat && c.toNat ≤ 122

/-- JS `[A-Za-z]`. -/
def alphaB (c : Char) : Bool := upperB c || lowerB c

/-- JS `[A-Za-z0-9]`. -/
def alnumB (c : Char) : Bool := alphaB c || digitB c

/-- JS `\w`, i.e. `[A-Za-z0-9_]`. -/
def wordB (c : Char) : Bool := alnumB c || c.toNat == 95

/-- JS `.` (without the `s` flag): any char except a line terminator. -/
def dotCharB (c : Char) : Bool :=
  !(c.toNat == 10 || c.toNat == 13 || c.toNat == 8232 || c.toNat == 8233)

/-! ### Basic string operations (on `List Char`) -/

/-- Drop JS whitespace from both ends: `String.prototype.trim`. -/
def jsTrim (l : List Char) : List Char :=
  ((l.dropWhile jsWs).reverse.dropWhile jsWs).reverse

/-- Remove every JS whitespace char: `replace(/\s+/g, '')`. -/
def removeWsL (l : List Char) : List Char := l.filter (fun c => !jsWs c)

/-- Replace each maximal run of chars failing `good` by a single space.
The `inRun` flag records whether the previous char was part of a run. -/
def runsToSpace (good : Char → Bool) : Bool → List Char → List Char
  | _, [] => []
  | inRun, c :: r =>
    if good c then c :: runsToSpace good false r
    else if inRun then runsToSpace good true r
    else ' ' :: runsToSpace good true r

/-- `replace(/\s+/g, ' ')`: collapse each whitespace run to one space. -/
def collapseWs (l : List Char) : List Char :=
  runsToSpace (fun c => !jsWs c) false l

/-! ### Unicode case and accent tables

`String.prototype.toUpperCase` / `toLowerCase` modelled on ASCII plus the
precomposed Latin letters occurring in French legal text; `stripPairs`
models `normalize('NFD')` followed by `replace(/\p{M}/gu, '')` for the
same repertoire (characters that NFD leaves alone are left unchanged). -/

def upperPairs : List (Char × Char) :=
  [('à', 'À'), ('â', 'Â'), ('ä', 'Ä'), ('é', 'É'), ('è', 'È'), ('ê', 'Ê'),
   ('ë', 'Ë'), ('î', 'Î'), ('ï', 'Ï'), ('ô', 'Ô'), ('ö', 'Ö'), ('ù', 'Ù'),
   ('û', 'Û'), ('ü', 'Ü'), ('ÿ', 'Ÿ'), ('ç', 'Ç'), ('œ', 'Œ'), ('æ', 'Æ')]

def lowerPairs : List (Char × Char) := upperPairs.map (fun p => (p.2, p.1))

def upperJs (c : Char) : Char :=
  if lowerB c then Char.ofNat (c.toNat - 32)
  else (((upperPairs.find? (fun p => p.1 == c)).map (fun p => p.2)).getD c)

def lowerJs (c : Char) : Char :=
  if upperB c then Char.ofNat (c.toNat + 32)
  else (((lowerPairs.find? (fun p => p.1 == c)).map (fun p => p.2)).getD c)

/-- SQLite `upper()`: ASCII-only. -/
def sqlUpper (c : Char) : Char :=
  if lowerB c then Char.ofNat (c.toNat - 32) else c

/-- SQLite `lower()`: ASCII-only. -/
def sqlLower (c : Char) : Char :=
  if upperB c then Char.ofNat (c.toNat + 32) else c

def stripPairs : List (Char × Char) :=
  [('à', 'a'), ('â', 'a'), ('ä', 'a'), ('é', 'e'), ('è', 'e'), ('ê', 'e'),
   ('ë', 'e'), ('î', 'i'), ('ï', 'i'), ('ô', 'o'), ('ö', 'o'), ('ù', 'u'),
   ('û', 'u'), ('ü', 'u'), ('ÿ', 'y'), ('ç', 'c'),
   ('À', 'A'), ('Â', 'A'), ('Ä', 'A'), ('É', 'E'), ('È', 'E'), ('Ê', 'E'),
   ('Ë', 'E'), ('Î', 'I'), ('Ï', 'I'), ('Ô', 'O'), ('Ö', 'O'), ('Ù', 'U'),
   ('Û', 'U'), ('Ü', 'U'), ('Ÿ', 'Y'), ('Ç', 'C')]

def stripAccentChar (c : Char) : Char :=
  (((stripPairs.find? (fun p => p.1 == c)).map (fun p => p.2)).getD c)

/-- Combining diacritical marks U+0300–U+036F (removed by `\p{M}`). -/
def isCombining (c : Char) : Bool := 768 ≤ c.toNat && c.toNat ≤ 879

/-! ### Article number normalizer (`scripts/lib/parser.ts`) -/

/-- The letters accepted case-insensitively by `(L|R|D|A)` with flag `i`. -/
def isLRDAci (c : Char) : Bool :=
  c == 'L' || c == 'R' || c == 'D' || c == 'A' ||
  c == 'l' || c == 'r' || c == 'd' || c == 'a'

/-- `raw.replace(/^(L|R|D|A)\.\s*/i, '$1')`: if the string starts with a
class letter followed by a period, keep the letter (as captured, so in
its original case) and drop the period and the following whitespace. -/
def stripDotSep : List Char → List Char
  | c :: '.' :: rest => if isLRDAci c then c :: rest.dropWhile jsWs else c :: '.' :: rest
  | l => l

/-- `raw.replace(/^(L|R|D|A)\*\s*/i, '$1')`. -/
def stripStarSep : List Char → List Char
  | c :: '*' :: rest => if isLRDAci c then c :: rest.dropWhile jsWs else c :: '*' :: rest
  | l => l

/-- `normalizeArticleNum` of `scripts/lib/parser.ts` on char lists. -/
def normalizeArticleNumL (raw : List Char) : List Char :=
  jsTrim (removeWsL (stripStarSep (stripDotSep raw)))

/-- `normalizeArticleNum` of `scripts/lib/parser.ts` (empty input yields
empty output; the guard `if (!raw) return ''` is the identity here). -/
def normalizeArticleNum (raw : String) : String :=
  ⟨normalizeArticleNumL raw.data⟩

/-- `articleTitle` of `scripts/lib/parser.ts`: the `prefixNames` table is
exactly `X ↦ "X."` for `X ∈ {L, R, D, A}`, and the match `/^([LRDA])(\d)/i`
succeeds when the first char is a class letter (either case) and the
second a digit; `rest` is `normalized.slice(1)`. -/
def articleTitleL (num : List Char) : List Char :=
  match normalizeArticleNumL num with
  | c :: d :: rest =>
    if isLRDAci c && digitB d then
      "Article ".data ++ upperJs c :: '.' :: ' ' :: d :: rest
    else "Article ".data ++ c :: d :: rest
  | n => "Article ".data ++ n

def articleTitle (num : String) : String := ⟨articleTitleL num.data⟩

/-! ### The article token grammar

`ARTICLE_TOKEN = (?:[A-Za-z]\s*\.?\s*)?\d+(?:-\d+)*(?:-[A-Za-z0-9]+)*`.

`tokenB` decides whether an entire string is matched by the token
grammar.  Every choice in the regex is forced on a full match (the body
must start with a digit, groups start with a hyphen), so a deterministic
recognizer is faithful: `groupsB` accepts `(?:-\d+)*(?:-[A-Za-z0-9]+)*`
(equivalently, since digits are alphanumeric, any sequence of
`-[A-Za-z0-9]+` groups), `bodyB` accepts `\d+` followed by such groups,
and `tokenB` accepts an optional `[A-Za-z]\s*\.?\s*` before the body. -/

def groupsAux : Bool → List Char → Bool
  | needAl, [] => !needAl
  | needAl, c :: r =>
    if alnumB c then groupsAux false r
    else if c == '-' then (if needAl then false else groupsAux true r)
    else false

def groupsB : List Char → Bool
  | [] => true
  | '-' :: r => groupsAux true r
  | _ => false

def bodyB (l : List Char) : Bool :=
  (l.takeWhile digitB ≠ []) && groupsB (l.dropWhile digitB)

def tokenB : List Char → Bool
  | [] => false
  | c :: r =>
    if alphaB c then
      match r.dropWhile jsWs with
      | '.' :: r2 => bodyB (r2.dropWhile jsWs)
      | r1 => bodyB r1
    else bodyB (c :: r)

/-! ### FTS5 query builder (`src/utils/fts-query.ts`) -/

/-- The chars of `FTS5_SPECIAL_CHARS = /[():{}^+.]/g`. -/
def dangerousB (c : Char) : Bool :=
  c == '(' || c == ')' || c == ':' || c == '\x7b' || c == '\x7d' ||
  c == '^' || c == '+' || c == '.'

/-- `sanitizeFtsInput` on char lists: dangerous chars become spaces, then
whitespace runs collapse and the result is trimmed. -/
def sanitizeFtsInputL (raw : List Char) : List Char :=
  jsTrim (collapseWs (raw.map (fun c => if dangerousB c then ' ' else c)))

def sanitizeFtsInput (raw : String) : String := ⟨sanitizeFtsInputL raw.data⟩

/-- The first alternative of `EXPLICIT_FTS_SYNTAX`: the source's char
class consists of three straight double quotes (bytes `5b 22 22 22 5d`),
so it matches exactly the straight double quote U+0022. -/
def isQuoteChar (c : Char) : Bool :=
  c == '"'

/-- Word boundary test against the preceding char (`\b`). -/
def boundaryOk : Option Char → Bool
  | none => true
  | some c => !wordB c

/-- Word boundary test against the following chars (`\b`). -/
def headBoundaryOk : List Char → Bool
  | [] => true
  | c :: _ => !wordB c

/-- Scan for a whole-word occurrence of `w` (`\bw\b`), carrying the
previous char for the left boundary test. -/
def hasWholeWordAux (w : List Char) : Option Char → List Char → Bool
  | _, [] => false
  | prev, c :: r =>
    (boundaryOk prev && w.isPrefixOf (c :: r) && headBoundaryOk ((c :: r).drop w.length))
    || hasWholeWordAux w (some c) r

def hasWholeWord (w : String) (l : List Char) : Bool := hasWholeWordAux w.data none l

/-- `EXPLICIT_FTS_SYNTAX = /["""]|(\bAND\b)|(\bOR\b)|(\bNOT\b)|\*$/`. -/
def explicitFts (l : List Char) : Bool :=
  l.any isQuoteChar || hasWholeWord "AND" l || hasWholeWord "OR" l ||
  hasWholeWord "NOT" l || (l.getLast? == some '*')

structure FtsQueryVariants where
  primary : String
  fallback : Option String := none
deriving DecidableEq, Repr

/-- The kept class of `t.replace(/[^\w\sÀ-ɏ-]/g, '')`. -/
def ftsKeepB (c : Char) : Bool :=
  wordB c || jsWs c || (192 ≤ c.toNat && c.toNat ≤ 591) || c == '-'

/-- Maximal non-whitespace runs, in order: the nonempty tokens of
`split(/\s+/).filter(t => t.length > 0)`. -/
def wsChunksAux : List Char → List Char → List (List Char)
  | acc, [] => if acc.isEmpty then [] else [acc.reverse]
  | acc, c :: r =>
    if jsWs c then
      if acc.isEmpty then wsChunksAux [] r else acc.reverse :: wsChunksAux [] r
    else wsChunksAux (c :: acc) r

def wsChunks (l : List Char) : List (List Char) := wsChunksAux [] l

/-- `Array.prototype.join(sep)` for nonempty-or-empty lists of strings. -/
def joinSep (sep : List Char) : List (List Char) → List Char
  | [] => []
  | [x] => x
  | x :: xs => x ++ sep ++ joinSep sep xs

/-- `buildFtsQueryVariants` of `src/utils/fts-query.ts`. -/
def buildFtsQueryVariants (query : String) : FtsQueryVariants :=
  let trimmed := jsTrim query.data
  if explicitFts trimmed then
    { primary := ⟨if (sanitizeFtsInputL trimmed).isEmpty then trimmed else sanitizeFtsInputL trimmed⟩ }
  else
    let tokens := (wsChunks (sanitizeFtsInputL trimmed)).map (List.filter ftsKeepB)
    if tokens.isEmpty then { primary := ⟨trimmed⟩ }
    else
      { primary := ⟨joinSep " ".data (tokens.map (fun t => '"' :: (t ++ ['"', '*'])))⟩,
        fallback := some ⟨joinSep " OR ".data (tokens.map (fun t => t ++ ['*']))⟩ }

/-! ### Citation parser (`src/citation/parser.ts`)

The three source regexes are modelled by explicit backtracking matchers.
A matcher (`RxM`) maps an input suffix to the list of possible remainders
in the engine's preference order; the first remainder that lets the whole
pattern reach the anchored end is the regex engine's match. -/

def RxM : Type := List Char → List (List Char)

def rxCh (p : Char → Bool) : RxM := fun l =>
  match l with
  | [] => []
  | c :: r => if p c then [r] else []

def rxThen (a b : RxM) : RxM := fun l => (a l).flatMap b

def rxAlt (a b : RxM) : RxM := fun l => a l ++ b l

/-- Greedy `x?`: with-the-char first. -/
def rxOptG (a : RxM) : RxM := fun l => a l ++ [l]

/-- Greedy `p*` over a char class: longest consumption first. -/
def starChAux (p : Char → Bool) : List Char → List (List Char)
  | [] => [[]]
  | c :: r => if p c then starChAux p r ++ [c :: r] else [c :: r]

def rxStarChG (p : Char → Bool) : RxM := starChAux p

/-- Greedy `p+` over a char class. -/
def rxPlusChG (p : Char → Bool) : RxM := rxThen (rxCh p) (rxStarChG p)

/-- Lazy `p+?` over a char class: shortest consumption first. -/
def plusChLazyAux (p : Char → Bool) : List Char → List (List Char)
  | [] => []
  | c :: r => if p c then r :: plusChLazyAux p r else []

def rxPlusChLazy (p : Char → Bool) : RxM := plusChLazyAux p

/-- Case-insensitive literal (flag `i`, ASCII folding). -/
def rxStrCI : List Char → RxM
  | [] => fun l => [l]
  | c :: cs => rxThen (rxCh (fun x => sqlLower x == sqlLower c)) (rxStrCI cs)

/-- Greedy `(...)* ` over a group, fuelled; only consuming iterations
recurse (a JS engine stops a star on an empty iteration, and every group
starred here always consumes). -/
def rxStarGFuel : Nat → RxM → RxM
  | 0, _ => fun l => [l]
  | n + 1, a => fun l =>
    (((a l).filter (fun r => r.length < l.length)).flatMap (rxStarGFuel n a)) ++ [l]

def rxStarG (a : RxM) : RxM := fun l => rxStarGFuel l.length a l

/-- `[A-Za-z]\s*\.?\s*` — the optional letter-and-separator part of
`ARTICLE_TOKEN`. -/
def letterSepRx : RxM :=
  rxThen (rxCh alphaB)
    (rxThen (rxStarChG jsWs) (rxThen (rxOptG (rxCh (fun c => c == '.'))) (rxStarChG jsWs)))

def hyphenDigitsRx : RxM := rxThen (rxCh (fun c => c == '-')) (rxPlusChG digitB)

def hyphenAlnumRx : RxM := rxThen (rxCh (fun c => c == '-')) (rxPlusChG alnumB)

/-- `ARTICLE_TOKEN = (?:[A-Za-z]\s*\.?\s*)?\d+(?:-\d+)*(?:-[A-Za-z0-9]+)*`. -/
def tokenRx : RxM :=
  rxThen (rxOptG letterSepRx)
    (rxThen (rxPlusChG digitB) (rxThen (rxStarG hyphenDigitsRx) (rxStarG hyphenAlnumRx)))

/-- `(?:article|art\.?)` with flag `i`. -/
def artKeywordRx : RxM :=
  rxAlt (rxStrCI "article".data)
    (rxThen (rxStrCI "art".data) (rxOptG (rxCh (fun c => c == '.'))))

/-- `TITLE_THEN_ARTICLE = ^(.+?),\s*(?:article|art\.?)\s*(TOKEN)\.?$`;
returns the two captures (raw title, raw token) of the engine's match. -/
def matchTitleThenArticle (l : List Char) : Option (List Char × List Char) :=
  ((rxPlusChLazy dotCharB l).flatMap (fun r1 =>
    (rxCh (fun c => c == ',') r1).flatMap (fun r2 =>
      (rxStarChG jsWs r2).flatMap (fun r3 =>
        (artKeywordRx r3).flatMap (fun r4 =>
          (rxStarChG jsWs r4).flatMap (fun r5 =>
            (tokenRx r5).flatMap (fun r6 =>
              (rxOptG (rxCh (fun c => c == '.')) r6).filterMap (fun r7 =>
                if r7.isEmpty then
                  some (l.take (l.length - r1.length), r5.take (r5.length - r6.length))
                else none)))))))).head?

/-- `ARTICLE_THEN_TITLE = ^(?:article|art\.?)\s*(TOKEN)\s+d(?:e|u)\s+(.+)$`;
returns (raw title, raw token). -/
def matchArticleThenTitle (l : List Char) : Option (List Char × List Char) :=
  ((artKeywordRx l).flatMap (fun r1 =>
    (rxStarChG jsWs r1).flatMap (fun r2 =>
      (tokenRx r2).flatMap (fun r3 =>
        (rxPlusChG jsWs r3).flatMap (fun r4 =>
          (rxCh (fun c => sqlLower c == 'd') r4).flatMap (fun r5 =>
            (rxAlt (rxCh (fun c => sqlLower c == 'e')) (rxCh (fun c => sqlLower c == 'u')) r5).flatMap (fun r6 =>
              (rxPlusChG jsWs r6).filterMap (fun r7 =>
                if !r7.isEmpty && r7.all dotCharB then
                  some (r7, r2.take (r2.length - r3.length))
                else none)))))))).head?

/-- `TITLE_ARTICLE_NO_COMMA = ^(.+?)\s+(?:article|art\.?)\s*(TOKEN)\.?$`;
returns (raw title, raw token). -/
def matchTitleNoComma (l : List Char) : Option (List Char × List Char) :=
  ((rxPlusChLazy dotCharB l).flatMap (fun r1 =>
    (rxPlusChG jsWs r1).flatMap (fun r3 =>
      (artKeywordRx r3).flatMap (fun r4 =>
        (rxStarChG jsWs r4).flatMap (fun r5 =>
          (tokenRx r5).flatMap (fun r6 =>
            (rxOptG (rxCh (fun c => c == '.')) r6).filterMap (fun r7 =>
              if r7.isEmpty then
                some (l.take (l.length - r1.length), r5.take (r5.length - r6.length))
              else none))))))).head?

/-- `normalizeInput`: curly apostrophe and backquote become `'`, then
whitespace collapses and the result is trimmed. -/
def normalizeInputL (v : List Char) : List Char :=
  jsTrim (collapseWs (v.map (fun c => if c == '’' || c == '\x60' then '\x27' else c)))

/-- `normalizeTitle`: strip one trailing run of `[.,;:]`, collapse
whitespace, trim. -/
def normalizeTitleL (v : List Char) : List Char :=
  jsTrim (collapseWs
    ((v.reverse.dropWhile (fun c => c == '.' || c == ',' || c == ';' || c == ':')).reverse))

/-- `normalizeArticleRef`: remove whitespace, remove periods, uppercase. -/
def normalizeArticleRefL (v : List Char) : List Char :=
  ((v.filter (fun c => !jsWs c)).filter (fun c => !(c == '.'))).map upperJs

def normalizeArticleRef (v : String) : String := ⟨normalizeArticleRefL v.data⟩

/-- `tryParsePatterns`: the three patterns in priority order, each
followed by title/token normalization. -/
def tryParsePatternsL (citation : List Char) : Option (List Char × List Char) :=
  match matchTitleThenArticle citation with
  | some (t, s) => some (normalizeTitleL t, normalizeArticleRefL s)
  | none =>
    match matchArticleThenTitle citation with
    | some (t, s) => some (normalizeTitleL t, normalizeArticleRefL s)
    | none =>
      match matchTitleNoComma citation with
      | some (t, s) => some (normalizeTitleL t, normalizeArticleRefL s)
      | none => none

/-- One alternative of `/\b(1[89]\d{2}|20\d{2})\b/` at the current
position (the left boundary is checked by the caller). -/
def yearAt (l : List Char) : Option Nat :=
  match l with
  | c1 :: c2 :: c3 :: c4 :: rest =>
    if ((c1 == '1' && (c2 == '8' || c2 == '9')) || (c1 == '2' && c2 == '0'))
        && digitB c3 && digitB c4 && headBoundaryOk rest then
      some ((c1.toNat - 48) * 1000 + (c2.toNat - 48) * 100 + (c3.toNat - 48) * 10 + (c4.toNat - 48))
    else none
  | _ => none

def findYearAux : Option Char → List Char → Option Nat
  | _, [] => none
  | prev, c :: r =>
    match (if boundaryOk prev then yearAt (c :: r) else none) with
    | some y => some y
    | none => findYearAux (some c) r

/-- First match of `title.match(/\b(1[89]\d{2}|20\d{2})\b/)`, parsed. -/
def findYear (l : List Char) : Option Nat := findYearAux none l

structure ParsedCitation where
  valid : Bool
  type : String
  title : Option String := none
  year : Option Nat := none
  «section» : Option String := none
  error : Option String := none
deriving DecidableEq, Repr

/-- `parseCitation` of `src/citation/parser.ts`. -/
def parseCitation (citation : String) : ParsedCitation :=
  if (jsTrim citation.data).isEmpty then
    { valid := false, type := "unknown", error := some "Empty citation" }
  else
    match tryParsePatternsL (normalizeInputL (jsTrim citation.data)) with
    | none =>
      { valid := false, type := "unknown",
        error := some ("Could not parse French citation: \"" ++ String.mk (jsTrim citation.data) ++ "\"") }
    | some (t, s) =>
      { valid := true, type := "statute", title := some ⟨t⟩, year := findYear t, «section» := some ⟨s⟩ }

/-! ### Citation validator (`src/citation/parser.ts`, `validateCitation`)

The database collaborator is modelled by its two relations; the two SQL
queries are modelled by list enumeration and by row filtering with
SQLite's ASCII-only `upper`/`lower`. -/

structure DocRow where
  id : String
  title : String
  short_name : Option String := none
  status : String
deriving DecidableEq, Repr

structure ProvRow where
  document_id : String
  provision_ref : String
  «section» : String
deriving DecidableEq, Repr

structure Db where
  docs : List DocRow
  provs : List ProvRow

structure ValidationResult where
  citation : ParsedCitation
  document_exists : Bool
  provision_exists : Bool
  document_title : Option String := none
  status : Option String := none
  warnings : List String
deriving DecidableEq, Repr

/-- `normalizeLookup`: NFD-decompose, strip combining marks, lowercase,
collapse non-alphanumeric runs to single spaces, trim. -/
def normalizeLookupL (v : List Char) : List Char :=
  jsTrim (runsToSpace (fun c => (97 ≤ c.toNat && c.toNat ≤ 122) || digitB c) false
    (((v.filter (fun c => !isCombining c)).map stripAccentChar).map lowerJs))

def normalizeLookup (v : String) : String := ⟨normalizeLookupL v.data⟩

/-- JS `hay.includes(needle)`: contiguous-substring test. -/
def isInfixB (needle : List Char) : List Char → Bool
  | [] => needle.isEmpty
  | c :: r => needle.isPrefixOf (c :: r) || isInfixB needle r

/-- Score contributed by one candidate field in `validateCitation`'s
loop: 4 for equality, 3 when the stored field contains the target,
2 when the target contains the stored field, 0 otherwise (empty
candidates and empty normalizations are skipped). -/
def candScore (target : List Char) (cand : String) : Nat :=
  if cand.data.isEmpty then 0
  else
    let n := normalizeLookupL cand.data
    if n.isEmpty then 0
    else if n = target then 4
    else if isInfixB target n then 3
    else if isInfixB n target then 2
    else 0

/-- Maximal score of a document over `[title, short_name ?? '', id]`. -/
def docScore (target : List Char) (doc : DocRow) : Nat :=
  max (max (candScore target doc.title) (candScore target (doc.short_name.getD ""))) (candScore target doc.id)

/-- The loop keeping the best-scoring document (`score > bestScore`,
first document wins ties), starting from `bestScore = -1`. -/
def bestDocAux (target : List Char) : List DocRow → Int → Option DocRow → Int × Option DocRow
  | [], bs, bd => (bs, bd)
  | d :: ds, bs, bd =>
    if bs < (docScore target d : Int) then bestDocAux target ds (docScore target d) (some d)
    else bestDocAux target ds bs bd

/-- `normalized.replace(/^ART/i, '')`. -/
def stripArt (l : List Char) : List Char :=
  if (l.take 3).map sqlLower = ['a', 'r', 't'] then l.drop 3 else l

def addUniq (acc : List (List Char)) (x : List Char) : List (List Char) :=
  if x ∈ acc then acc else acc ++ [x]

/-- `buildSectionCandidates`: the normalized section, the `ART`-stripped
form, and (when it matches `^([A-Z])(\d.*)$`) the letter-digit form, as
an insertion-ordered set, nonempty entries only. -/
def buildSectionCandidatesL (sectionStr : List Char) : List (List Char) :=
  let normalized := normalizeArticleRefL sectionStr
  let withoutArt := stripArt normalized
  let base := addUniq (addUniq [] normalized) withoutArt
  (match withoutArt with
   | c :: d :: rest =>
     if upperB c && digitB d && rest.all dotCharB then addUniq base (c :: d :: rest) else base
   | _ => base).filter (fun v => !v.isEmpty)

/-- `value.startsWith('ART') ? value.toLowerCase() : ('art' + value).toLowerCase()`. -/
def refCandOf (v : List Char) : List Char :=
  if v.take 3 = ['A', 'R', 'T'] then v.map lowerJs else ("art".data ++ v).map lowerJs

/-- One row of the provision-existence SQL: same document, and either the
period-free uppercased `section` is among the section candidates or the
lowercased `provision_ref` is among the ref candidates. -/
def provMatchesB (docId : String) (secCands refCands : List (List Char)) (p : ProvRow) : Bool :=
  p.document_id == docId &&
  (secCands.contains ((p.«section».data.filter (fun c => !(c == '.'))).map sqlUpper) ||
   refCands.contains (p.provision_ref.data.map sqlLower))

def titleOrEmpty (p : ParsedCitation) : String := p.title.getD ""

/-- JS truthiness of `parsed.section`. -/
def sectionVal (p : ParsedCitation) : Option String :=
  match p.«section» with
  | none => none
  | some s => if s == "" then none else some s

/-- The body of `validateCitation` after the parse call, as a function of
the parse result (the source consumes `parsed` only through its fields). -/
def validateParsed (db : Db) (p : ParsedCitation) : ValidationResult :=
  if !p.valid then
    { citation := p, document_exists := false, provision_exists := false,
      warnings := [p.error.getD "Invalid citation format"] }
  else if titleOrEmpty p == "" then
    { citation := p, document_exists := false, provision_exists := false,
      warnings := ["Citation does not include a recognizable statute title"] }
  else
    match (if 0 < (bestDocAux (normalizeLookupL (titleOrEmpty p).data) db.docs (-1) none).1
           then (bestDocAux (normalizeLookupL (titleOrEmpty p).data) db.docs (-1) none).2
           else none) with
    | none =>
      { citation := p, document_exists := false, provision_exists := false,
        warnings := ["Document \"" ++ titleOrEmpty p ++ "\" not found in database"] }
    | some doc =>
      match sectionVal p with
      | none =>
        { citation := p, document_exists := true, provision_exists := true,
          document_title := some doc.title, status := some doc.status,
          warnings := if doc.status == "repealed" then ["This statute has been repealed"] else [] }
      | some sec =>
        { citation := p, document_exists := true,
          provision_exists := db.provs.any (provMatchesB doc.id (buildSectionCandidatesL sec.data)
            ((buildSectionCandidatesL sec.data).map refCandOf)),
          document_title := some doc.title, status := some doc.status,
          warnings :=
            (if doc.status == "repealed" then ["This statute has been repealed"] else []) ++
            (if db.provs.any (provMatchesB doc.id (buildSectionCandidatesL sec.data)
                ((buildSectionCandidatesL sec.data).map refCandOf)) then []
             else ["Article " ++ sec ++ " not found in " ++ doc.title]) }

/-- `validateCitation` of `src/citation/parser.ts`. -/
def validateCitation (db : Db) (citation : String) : ValidationResult :=
  validateParsed db (parseCitation citation)

/-! ### Citation formatter (`src/citation/parser.ts`, `buildArticleRef`) -/

/-- `buildArticleRef`: normalize like `normalizeArticleRef`, then when
the result matches `^([A-Z])(\d.*)$` render `"{LETTER}. {rest}"`. -/
def buildArticleRefL (sectionStr : List Char) : List Char :=
  match normalizeArticleRefL sectionStr with
  | c :: d :: rest =>
    if upperB c && digitB d && rest.all dotCharB then c :: '.' :: ' ' :: d :: rest
    else c :: d :: rest
  | n => n

def buildArticleRef (sectionStr : String) : String := ⟨buildArticleRefL sectionStr.data⟩

/-! ### Predicates used in claim statements -/

/-- Guard of the two separator-stripping rules of `normalizeArticleNum`:
true iff the string begins with a class letter (either case) immediately
followed by a period or an asterisk. -/
def stripCondB : List Char → Bool
  | c :: x :: _ => isLRDAci c && (x == '.' || x == '*')
  | _ => false

/-- Every period of the string occurs as its second char, immediately
after a leading uppercase class letter (token-grammar strings contain at
most one period, so the head shape decides this). -/
def dotCondB : List Char → Bool
  | c :: '.' :: _ => c == 'L' || c == 'R' || c == 'D' || c == 'A'
  | l => !l.contains '.'

/-- A leading letter, when present, is an uppercase class letter. -/
def leadCondB : List Char → Bool
  | [] => true
  | c :: _ => !alphaB c || (c == 'L' || c == 'R' || c == 'D' || c == 'A')

end FrenchLaw

/-! ## Helper lemmas -/

namespace FrenchLaw

theorem jsWs_toNat_mem {c : Char} (h : jsWs c = true) : c.toNat ∈ jsWsCodes := by
  simpa [jsWs, List.elem_iff, List.contains] using h

theorem jsWs_false_of_ascii {c : Char} (h1 : 33 ≤ c.toNat) (h2 : c.toNat ≤ 126) :
    jsWs c = false := by
  cases hw : jsWs c with
  | false => rfl
  | true =>
    have hm := jsWs_toNat_mem hw
    simp only [jsWsCodes, List.mem_cons, List.not_mem_nil, or_false] at hm
    omega

theorem digitB_toNat {c : Char} (h : digitB c = true) : 48 ≤ c.toNat ∧ c.toNat ≤ 57 := by
  simpa [digitB] using h

theorem upperB_toNat {c : Char} (h : upperB c = true) : 65 ≤ c.toNat ∧ c.toNat ≤ 90 := by
  simpa [upperB] using h

theorem lowerB_false_toNat {c : Char} (h : lowerB c = false) :
    c.toNat < 97 ∨ 122 < c.toNat := by
  have : ¬(97 ≤ c.toNat ∧ c.toNat ≤ 122) := by simpa [lowerB] using h
  omega

theorem alphaB_toNat {c : Char} (h : alphaB c = true) :
    (65 ≤ c.toNat ∧ c.toNat ≤ 90) ∨ (97 ≤ c.toNat ∧ c.toNat ≤ 122) := by
  rcases (by simpa [alphaB] using h : upperB c = true ∨ lowerB c = true) with h | h
  · exact Or.inl (upperB_toNat h)
  · exact Or.inr (by simpa [lowerB] using h)

theorem alnumB_toNat {c : Char} (h : alnumB c = true) :
    (65 ≤ c.toNat ∧ c.toNat ≤ 90) ∨ (97 ≤ c.toNat ∧ c.toNat ≤ 122) ∨
    (48 ≤ c.toNat ∧ c.toNat ≤ 57) := by
  rcases (by simpa [alnumB] using h : alphaB c = true ∨ digitB c = true) with h | h
  · rcases alphaB_toNat h with h | h
    · exact Or.inl h
    · exact Or.inr (Or.inl h)
  · exact Or.inr (Or.inr (digitB_toNat h))

theorem char_ne_of_toNat_ne {c d : Char} (h : c.toNat ≠ d.toNat) : c ≠ d :=
  fun he => h (by rw [he])

theorem isLRDAci_cases {c : Char} (h : isLRDAci c = true) :
    c = 'L' ∨ c = 'R' ∨ c = 'D' ∨ c = 'A' ∨ c = 'l' ∨ c = 'r' ∨ c = 'd' ∨ c = 'a' := by
  simpa [isLRDAci, or_assoc] using h

theorem isLRDAci_not_ws {c : Char} (h : isLRDAci c = true) : jsWs c = false := by
  rcases isLRDAci_cases h with rfl | rfl | rfl | rfl | rfl | rfl | rfl | rfl <;> decide

theorem upperJs_id {c : Char} (h1 : lowerB c = false) (h2 : c.toNat < 192) :
    upperJs c = c := by
  unfold upperJs
  rw [if_neg (by simp [h1])]
  have hfind : upperPairs.find? (fun p => p.1 == c) = none := by
    rw [List.find?_eq_none]
    intro p hp
    have hge : 192 ≤ p.1.toNat := by fin_cases hp <;> decide
    simp only [beq_iff_eq]
    intro he
    rw [he] at hge
    omega
  rw [hfind]
  rfl

theorem dropWhile_append_all {p : Char → Bool} {w : List Char}
    (hw : ∀ x ∈ w, p x = true) (l : List Char) :
    (w ++ l).dropWhile p = l.dropWhile p := by
  induction w with
  | nil => rfl
  | cons a r ih =>
    rw [List.cons_append, List.dropWhile_cons_of_pos (by simp [hw a (by simp)])]
    exact ih (fun x hx => hw x (by simp [hx]))

theorem dropWhile_cons_neg {p : Char → Bool} {d : Char} (hd : p d = false)
    (l : List Char) : (d :: l).dropWhile p = d :: l :=
  List.dropWhile_cons_of_neg (by simp [hd])

theorem jsTrim_of_no_ws {l : List Char} (h : ∀ c ∈ l, jsWs c = false) :
    jsTrim l = l := by
  unfold jsTrim
  have h1 : l.dropWhile jsWs = l := by
    cases l with
    | nil => rfl
    | cons a r => exact dropWhile_cons_neg (h a (by simp)) r
  rw [h1]
  have h2 : l.reverse.dropWhile jsWs = l.reverse := by
    cases hr : l.reverse with
    | nil => rfl
    | cons a r =>
      have ha : a ∈ l := by
        rw [← List.mem_reverse, hr]
        simp
      exact dropWhile_cons_neg (h a ha) r
  rw [h2, List.reverse_reverse]

theorem jsTrim_subset {l : List Char} {c : Char} (h : c ∈ jsTrim l) : c ∈ l := by
  unfold jsTrim at h
  rw [List.mem_reverse] at h
  have h2 := List.dropWhile_subset (l := (l.dropWhile jsWs).reverse) jsWs h
  rw [List.mem_reverse] at h2
  exact List.dropWhile_subset jsWs h2

theorem mem_dropWhile_of_neg {p : Char → Bool} {c : Char} (hc : p c = false) :
    ∀ {l : List Char}, c ∈ l → c ∈ l.dropWhile p := by
  intro l
  induction l with
  | nil => intro h; cases h
  | cons a r ih =>
    intro h
    by_cases ha : p a = true
    · rw [List.dropWhile_cons_of_pos (by simp [ha])]
      rcases List.mem_cons.mp h with rfl | h2
      · rw [ha] at hc; cases hc
      · exact ih h2
    · rw [List.dropWhile_cons_of_neg (by simpa using ha)]
      exact h

theorem mem_jsTrim {c : Char} (hc : jsWs c = false) {l : List Char} (h : c ∈ l) :
    c ∈ jsTrim l := by
  unfold jsTrim
  rw [List.mem_reverse]
  apply mem_dropWhile_of_neg hc
  rw [List.mem_reverse]
  exact mem_dropWhile_of_neg hc h

theorem mem_runsToSpace {good : Char → Bool} {c : Char} (hc : good c = true) :
    ∀ (b : Bool) (l : List Char), c ∈ l → c ∈ runsToSpace good b l := by
  intro b l
  induction l generalizing b with
  | nil => intro h; cases h
  | cons a r ih =>
    intro h
    unfold runsToSpace
    rcases List.mem_cons.mp h with rfl | h2
    · rw [if_pos (by simp [hc])]
      simp
    · by_cases ha : good a = true
      · rw [if_pos (by simp [ha])]
        exact List.mem_cons_of_mem _ (ih false h2)
      · rw [if_neg (by simpa using ha)]
        by_cases hb : b
        · rw [if_pos hb]
          exact ih true h2
        · rw [if_neg hb]
          exact List.mem_cons_of_mem _ (ih true h2)

/-- Every character of `normalizeArticleNum`'s output is non-whitespace. -/
theorem normNum_no_ws (s : List Char) :
    ∀ c ∈ normalizeArticleNumL s, jsWs c = false := by
  intro c h
  have h2 := jsTrim_subset h
  unfold removeWsL at h2
  rcases List.mem_filter.mp h2 with ⟨_, hp⟩
  simpa using hp

theorem stripDotSep_of_ne {c d : Char} (r : List Char) (hd : d ≠ '.') :
    stripDotSep (c :: d :: r) = c :: d :: r := by
  unfold stripDotSep
  split
  next c2 r2 heq =>
    rw [List.cons.injEq, List.cons.injEq] at heq
    exact absurd heq.2.1 hd
  next => rfl

theorem stripDotSep_pos {c : Char} (r : List Char) (hc : isLRDAci c = true) :
    stripDotSep (c :: '.' :: r) = c :: r.dropWhile jsWs := by
  unfold stripDotSep
  split
  next c2 r2 heq =>
    rw [List.cons.injEq, List.cons.injEq] at heq
    obtain ⟨rfl, -, rfl⟩ := heq
    rw [if_pos hc]
  next h =>
    exact absurd rfl (h c r)

theorem stripStarSep_of_ne {c d : Char} (r : List Char) (hd : d ≠ '*') :
    stripStarSep (c :: d :: r) = c :: d :: r := by
  unfold stripStarSep
  split
  next c2 r2 heq =>
    rw [List.cons.injEq, List.cons.injEq] at heq
    exact absurd heq.2.1 hd
  next => rfl

theorem stripStarSep_pos {c : Char} (r : List Char) (hc : isLRDAci c = true) :
    stripStarSep (c :: '*' :: r) = c :: r.dropWhile jsWs := by
  unfold stripStarSep
  split
  next c2 r2 heq =>
    rw [List.cons.injEq, List.cons.injEq] at heq
    obtain ⟨rfl, -, rfl⟩ := heq
    rw [if_pos hc]
  next h =>
    exact absurd rfl (h c r)

theorem stripDotSep_neg {c : Char} (r : List Char) (hc : isLRDAci c = false) :
    stripDotSep (c :: '.' :: r) = c :: '.' :: r := by
  unfold stripDotSep
  split
  next c2 r2 heq =>
    rw [List.cons.injEq, List.cons.injEq] at heq
    obtain ⟨rfl, -, rfl⟩ := heq
    rw [if_neg (by simp [hc])]
  next h =>
    exact absurd rfl (h c r)

theorem stripStarSep_neg {c : Char} (r : List Char) (hc : isLRDAci c = false) :
    stripStarSep (c :: '*' :: r) = c :: '*' :: r := by
  unfold stripStarSep
  split
  next c2 r2 heq =>
    rw [List.cons.injEq, List.cons.injEq] at heq
    obtain ⟨rfl, -, rfl⟩ := heq
    rw [if_neg (by simp [hc])]
  next h =>
    exact absurd rfl (h c r)

end FrenchLaw

/-! ## Claim theorems -/

namespace FrenchLaw

/-- Claim C1 counterexample: the normalizer does not uppercase the class
letter — on the claim's own example input `"l. 323-1"` it returns
`"l323-1"`, not `"L323-1"`. -/
theorem normalizeArticleNum_lowercase_cex :
    normalizeArticleNum "l. 323-1" = "l323-1" ∧ normalizeArticleNum "l. 323-1" ≠ "L323-1" :=
  ⟨by decide, by decide⟩

/-- Claim C1 (amended): for every input beginning with a class prefix
letter (either case) followed by a period, an asterisk, or a period and
asterisk, then whitespace, then the digits, `normalizeArticleNum` strips
the separator and the whitespace and retains the prefix letter in its
original case (not uppercased) directly before the digits. -/
theorem normalizeArticleNum_strips_separator (c : Char) (sep w rest : List Char)
    (d : Char) (r2 : List Char)
    (hc : isLRDAci c = true)
    (hsep : sep = ['.'] ∨ sep = ['*'] ∨ sep = ['.', '*'])
    (hw : ∀ x ∈ w, jsWs x = true)
    (hr : rest = d :: r2)
    (hd : digitB d = true) :
    normalizeArticleNumL (c :: (sep ++ (w ++ rest))) = c :: removeWsL rest := by
  have hdnat := digitB_toNat hd
  have hstar42 : ('*').toNat = 42 := by decide
  have hdws : jsWs d = false := jsWs_false_of_ascii (by omega) (by omega)
  have hdne_star : d ≠ '*' := char_ne_of_toNat_ne (by omega)
  have hcws : jsWs c = false := isLRDAci_not_ws hc
  have hdw : (w ++ rest).dropWhile jsWs = rest := by
    rw [dropWhile_append_all hw, hr, dropWhile_cons_neg hdws]
  have htail : jsTrim (removeWsL (c :: rest)) = c :: removeWsL rest := by
    have h1 : removeWsL (c :: rest) = c :: removeWsL rest := by
      unfold removeWsL
      rw [List.filter_cons_of_pos (by simp [hcws])]
    rw [h1]
    apply jsTrim_of_no_ws
    intro x hx
    rcases List.mem_cons.mp hx with rfl | hx2
    · exact hcws
    · rcases List.mem_filter.mp hx2 with ⟨-, hp⟩
      simpa using hp
  rcases hsep with rfl | rfl | rfl
  · show normalizeArticleNumL (c :: '.' :: (w ++ rest)) = c :: removeWsL rest
    unfold normalizeArticleNumL
    rw [stripDotSep_pos _ hc, hdw, hr, stripStarSep_of_ne _ hdne_star, ← hr, htail]
  · show normalizeArticleNumL (c :: '*' :: (w ++ rest)) = c :: removeWsL rest
    unfold normalizeArticleNumL
    rw [stripDotSep_of_ne _ (by decide), stripStarSep_pos _ hc, hdw, htail]
  · show normalizeArticleNumL (c :: '.' :: '*' :: (w ++ rest)) = c :: removeWsL rest
    unfold normalizeArticleNumL
    rw [stripDotSep_pos _ hc, dropWhile_cons_neg (by decide) (w ++ rest),
      stripStarSep_pos _ hc, hdw, htail]

/-- Claim C1 witness: the amended statement instantiated at `"L. 323-1"`:
the `"L. "` separator is stripped and the uppercase letter kept. -/
theorem normalizeArticleNum_strips_separator_witness :
    normalizeArticleNumL ('L' :: (['.'] ++ ([' '] ++ "323-1".data))) = 'L' :: removeWsL "323-1".data :=
  normalizeArticleNum_strips_separator 'L' ['.'] [' '] "323-1".data '3' "23-1".data
    (by decide) (Or.inl rfl) (by decide) (by decide) (by decide)

/-- Claim C2 counterexample: `normalizeArticleNum` is not idempotent on
all strings — on `"L .123"` a first pass removes the interior whitespace
and creates a fresh `"L."` separator which a second pass then strips. -/
theorem normalizeArticleNum_idem_cex :
    normalizeArticleNum (normalizeArticleNum "L .123") ≠ normalizeArticleNum "L .123" := by
  decide

/-- Claim C2 (amended): `normalizeArticleNum` is idempotent on every
input whose normalized form does not begin with a class letter (either
case) immediately followed by a period or an asterisk. -/
theorem normalizeArticleNum_conditional_idem (s : List Char)
    (h : stripCondB (normalizeArticleNumL s) = false) :
    normalizeArticleNumL (normalizeArticleNumL s) = normalizeArticleNumL s := by
  have hws := normNum_no_ws s
  have h1 : stripDotSep (normalizeArticleNumL s) = normalizeArticleNumL s := by
    rcases hn : normalizeArticleNumL s with - | ⟨c, - | ⟨x, r⟩⟩
    · rfl
    · rfl
    · by_cases hx : x = '.'
      · subst hx
        rw [hn] at h
        unfold stripCondB at h
        simp at h
        exact stripDotSep_neg r h
      · exact stripDotSep_of_ne r hx
  have h2 : stripStarSep (normalizeArticleNumL s) = normalizeArticleNumL s := by
    rcases hn : normalizeArticleNumL s with - | ⟨c, - | ⟨x, r⟩⟩
    · rfl
    · rfl
    · by_cases hx : x = '*'
      · subst hx
        rw [hn] at h
        unfold stripCondB at h
        simp at h
        exact stripStarSep_neg r h
      · exact stripStarSep_of_ne r hx
  have h3 : removeWsL (normalizeArticleNumL s) = normalizeArticleNumL s := by
    apply List.filter_eq_self.mpr
    intro a ha
    simp [hws a ha]
  have h4 : jsTrim (normalizeArticleNumL s) = normalizeArticleNumL s :=
    jsTrim_of_no_ws hws
  calc normalizeArticleNumL (normalizeArticleNumL s)
      = jsTrim (removeWsL (stripStarSep (stripDotSep (normalizeArticleNumL s)))) := rfl
    _ = normalizeArticleNumL s := by rw [h1, h2, h3, h4]

/-- Claim C2 witness: the amended idempotence applied to the already
well-separated input `"L. 323-1"`. -/
theorem normalizeArticleNum_conditional_idem_witness :
    stripCondB (normalizeArticleNumL "L. 323-1".data) = false ∧
    normalizeArticleNumL (normalizeArticleNumL "L. 323-1".data) = normalizeArticleNumL "L. 323-1".data :=
  ⟨by decide, normalizeArticleNum_conditional_idem "L. 323-1".data (by decide)⟩

/-- Claim C3: `parseCitation "Code de la défense, art. L. 2321-1"`
returns a valid statute citation with title `"Code de la défense"` and
normalized section `"L2321-1"`, and the comma-delimited
title-then-article pattern is the one that matches, capturing the raw
title and raw token shown. -/
theorem parseCitation_defense_scenario :
    parseCitation "Code de la défense, art. L. 2321-1" =
      { valid := true, type := "statute", title := some "Code de la défense",
        year := none, «section» := some "L2321-1", error := none } ∧
    matchTitleThenArticle (normalizeInputL (jsTrim "Code de la défense, art. L. 2321-1".data)) =
      some ("Code de la défense".data, "L. 2321-1".data) :=
  ⟨by decide, by decide⟩

/-- Claim C10: a citation whose captured title is reduced to the empty
string by trailing-punctuation stripping still parses as valid (witness
input `",, art. 1"`), and every such valid-but-empty-title parse makes
`validateCitation` report a missing statute title with both existence
flags false, for any database state. -/
theorem parseCitation_empty_title_validate :
    ((parseCitation ",, art. 1").valid = true ∧ (parseCitation ",, art. 1").title = some "") ∧
    ∀ (db : Db) (s : String), (parseCitation s).valid = true → (parseCitation s).title = some "" →
      validateCitation db s =
        { citation := parseCitation s, document_exists := false, provision_exists := false,
          warnings := ["Citation does not include a recognizable statute title"] } := by
  refine ⟨⟨by decide, by decide⟩, ?_⟩
  intro db s hv ht
  unfold validateCitation validateParsed
  rw [hv]
  simp [titleOrEmpty, ht]

/-- Claim C10 witness: the universal part applied to the empty database
and the concrete input `",, art. 1"`. -/
theorem parseCitation_empty_title_validate_witness :
    validateCitation ⟨[], []⟩ ",, art. 1" =
      { citation := parseCitation ",, art. 1", document_exists := false, provision_exists := false,
        warnings := ["Citation does not include a recognizable statute title"] } :=
  parseCitation_empty_title_validate.2 ⟨[], []⟩ ",, art. 1" (by decide) (by decide)

/-- Claim C9 counterexample: for the non-empty all-whitespace input
`" "` the query builder returns an empty `primary`. -/
theorem buildFtsQueryVariants_blank_cex :
    (" " : String) ≠ "" ∧ (buildFtsQueryVariants " ").primary = "" :=
  ⟨by decide, by decide⟩

/-- Claim C9 (amended): for every input whose trimmed form is non-empty,
`buildFtsQueryVariants` returns a non-empty `primary`. -/
theorem buildFtsQueryVariants_primary_ne_empty (q : String) (h : jsTrim q.data ≠ []) :
    (buildFtsQueryVariants q).primary ≠ "" := by
  have hmk : ∀ (x : List Char), x ≠ [] → (⟨x⟩ : String) ≠ "" := by
    intro x hx he
    exact hx (congrArg String.data he)
  have hjoin : ∀ (sep x : List Char) (xs : List (List Char)),
      joinSep sep (('"' :: x) :: xs) ≠ [] := by
    intro sep x xs
    cases xs <;> simp [joinSep]
  simp only [buildFtsQueryVariants]
  split
  · -- explicit-syntax branch
    apply hmk
    split
    · exact h
    · next hne => simpa using hne
  · -- tokenizing branch
    split
    · exact hmk _ h
    · next hne =>
      rcases htk : (wsChunks (sanitizeFtsInputL (jsTrim q.data))).map (List.filter ftsKeepB) with - | ⟨t, ts⟩
      · exact absurd (by simpa using htk) hne
      · apply hmk
        simp only [List.map_cons]
        exact hjoin _ _ _

/-- Claim C9 witness: the amended statement at the non-blank input
`"hello"`. -/
theorem buildFtsQueryVariants_primary_ne_empty_witness :
    jsTrim ("hello" : String).data ≠ [] ∧ (buildFtsQueryVariants "hello").primary ≠ "" :=
  ⟨by decide, buildFtsQueryVariants_primary_ne_empty "hello" (by decide)⟩

end FrenchLaw

namespace FrenchLaw

/-! Support lemmas for the explicit-syntax branch of the query builder. -/

theorem mem_sanitize {c : Char} (hws : jsWs c = false) (hd : dangerousB c = false)
    {l : List Char} (h : c ∈ l) : c ∈ sanitizeFtsInputL l := by
  unfold sanitizeFtsInputL
  apply mem_jsTrim hws
  unfold collapseWs
  apply mem_runsToSpace (by simp [hws])
  simpa [hd] using List.mem_map_of_mem (fun c => if dangerousB c then ' ' else c) h

theorem hasWholeWordAux_head_mem {c0 : Char} {w : List Char} :
    ∀ {prev : Option Char} {l : List Char}, hasWholeWordAux (c0 :: w) prev l = true → c0 ∈ l := by
  intro prev l
  induction l generalizing prev with
  | nil => intro h; simp [hasWholeWordAux] at h
  | cons a r ih =>
    intro h
    unfold hasWholeWordAux at h
    rcases Bool.or_eq_true_iff.mp h with h1 | h2
    · have hp : (c0 :: w).isPrefixOf (a :: r) = true := by
        rcases Bool.and_eq_true_iff.mp h1 with ⟨h3, -⟩
        exact (Bool.and_eq_true_iff.mp h3).2
      have hpr : c0 = a ∧ w <+: r := by simpa using hp
      simp [hpr.1]
    · exact List.mem_cons_of_mem _ (ih h2)

theorem explicit_has_safe_char {l : List Char} (h : explicitFts l = true) :
    ∃ c ∈ l, jsWs c = false ∧ dangerousB c = false := by
  unfold explicitFts at h
  rcases Bool.or_eq_true_iff.mp h with h | h
  rotate_left
  · -- trailing `*`
    have hl : l.getLast? = some '*' := by simpa using h
    exact ⟨'*', List.mem_of_getLast?_eq_some hl, by decide, by decide⟩
  rcases Bool.or_eq_true_iff.mp h with h | h
  rotate_left
  · -- whole word NOT
    have hm : 'N' ∈ l := hasWholeWordAux_head_mem (w := "OT".data) (by exact h)
    exact ⟨'N', hm, by decide, by decide⟩
  rcases Bool.or_eq_true_iff.mp h with h | h
  rotate_left
  · -- whole word OR
    have hm : 'O' ∈ l := hasWholeWordAux_head_mem (w := "R".data) (by exact h)
    exact ⟨'O', hm, by decide, by decide⟩
  rcases Bool.or_eq_true_iff.mp h with h | h
  · -- a double quote
    obtain ⟨c, hc, hq⟩ := List.any_eq_true.mp h
    obtain rfl : c = '"' := by simpa [isQuoteChar] using hq
    exact ⟨'"', hc, by decide, by decide⟩
  · -- whole word AND
    have hm : 'A' ∈ l := hasWholeWordAux_head_mem (w := "ND".data) (by exact h)
    exact ⟨'A', hm, by decide, by decide⟩

theorem sanitize_ne_nil_of_explicit {l : List Char} (h : explicitFts l = true) :
    sanitizeFtsInputL l ≠ [] := by
  obtain ⟨c, hc, hws, hd⟩ := explicit_has_safe_char h
  intro he
  have hmem := mem_sanitize hws hd hc
  rw [he] at hmem
  cases hmem

end FrenchLaw

namespace FrenchLaw

/-- Claim C8: whenever the trimmed input matches the explicit-syntax
test (a double quote, a whole-word AND/OR/NOT, or a trailing asterisk),
`buildFtsQueryVariants` returns exactly the sanitized trimmed input as
its sole `primary` — no tokenization, no added wildcards, no fallback. -/
theorem buildFtsQueryVariants_explicit (q : String)
    (h : explicitFts (jsTrim q.data) = true) :
    buildFtsQueryVariants q =
      { primary := ⟨sanitizeFtsInputL (jsTrim q.data)⟩, fallback := none } := by
  have hne := sanitize_ne_nil_of_explicit h
  simp [buildFtsQueryVariants, h, hne]

/-- Claim C8 witness: scenario 6 — the query with two quoted phrases and
an explicit AND is returned unchanged as `primary`, with no fallback. -/
theorem buildFtsQueryVariants_explicit_witness :
    buildFtsQueryVariants "\"traitement automatisé\" AND \"données personnelles\"" =
      { primary := "\"traitement automatisé\" AND \"données personnelles\"", fallback := none } := by
  rw [buildFtsQueryVariants_explicit "\"traitement automatisé\" AND \"données personnelles\"" (by decide)]
  decide

end FrenchLaw

namespace FrenchLaw

/-! Support lemmas for the validator's best-document loop. -/

theorem bestDocAux_fst_le_zero (target : List Char) :
    ∀ (ds : List DocRow) (bs : Int) (bd : Option DocRow),
      (∀ d ∈ ds, docScore target d = 0) → bs ≤ 0 →
      (bestDocAux target ds bs bd).1 ≤ 0 := by
  intro ds
  induction ds with
  | nil =>
    intro bs bd _ hb
    simpa [bestDocAux] using hb
  | cons d dsn ih =>
    intro bs bd h hb
    unfold bestDocAux
    split
    · refine ih _ _ (fun x hx => h x (List.mem_cons_of_mem _ hx)) ?_
      rw [h d (List.mem_cons_self _ _)]
      simp
    · exact ih _ _ (fun x hx => h x (List.mem_cons_of_mem _ hx)) hb

theorem bestDocAux_fst_ge (target : List Char) :
    ∀ (ds : List DocRow) (bs : Int) (bd : Option DocRow),
      bs ≤ (bestDocAux target ds bs bd).1 := by
  intro ds
  induction ds with
  | nil =>
    intro bs bd
    simp [bestDocAux]
  | cons d dsn ih =>
    intro bs bd
    unfold bestDocAux
    split
    · next hlt => exact le_of_lt (lt_of_lt_of_le hlt (ih _ _))
    · exact ih _ _

theorem bestDocAux_fst_ge_score (target : List Char) (d0 : DocRow) :
    ∀ (ds : List DocRow), d0 ∈ ds → ∀ (bs : Int) (bd : Option DocRow),
      (docScore target d0 : Int) ≤ (bestDocAux target ds bs bd).1 := by
  intro ds
  induction ds with
  | nil =>
    intro h
    cases h
  | cons d dsn ih =>
    intro hmem bs bd
    rcases List.mem_cons.mp hmem with rfl | hmem2
    · unfold bestDocAux
      split
      · exact bestDocAux_fst_ge target dsn _ _
      · next hnlt => exact le_trans (by omega) (bestDocAux_fst_ge target dsn _ _)
    · unfold bestDocAux
      split <;> exact ih hmem2 _ _

theorem bestDocAux_snd_some (target : List Char) :
    ∀ (ds : List DocRow) (bs : Int) (d : DocRow),
      ∃ d2, (bestDocAux target ds bs (some d)).2 = some d2 := by
  intro ds
  induction ds with
  | nil =>
    intro bs d
    exact ⟨d, rfl⟩
  | cons d3 dsn ih =>
    intro bs d
    unfold bestDocAux
    split
    · exact ih _ _
    · exact ih _ _

theorem bestDocAux_none_fst (target : List Char) :
    ∀ (ds : List DocRow) (bs : Int),
      (bestDocAux target ds bs none).2 = none → (bestDocAux target ds bs none).1 = bs := by
  intro ds
  induction ds with
  | nil =>
    intro bs _
    rfl
  | cons d dsn ih =>
    intro bs h2
    unfold bestDocAux at h2 ⊢
    split at h2
    · obtain ⟨d2, hd2⟩ := bestDocAux_snd_some target dsn (docScore target d) d
      rw [hd2] at h2
      cases h2
    · next hnlt =>
      rw [if_neg hnlt]
      exact ih _ h2

end FrenchLaw

namespace FrenchLaw

/-- Claim C5: if the parsed citation is valid with a non-empty title and
every stored document scores zero in the scored comparison, then
`validateCitation` reports the document and the provision as missing,
with a not-found warning. -/
theorem validateCitation_all_scores_zero (db : Db) (s : String) (tt : String)
    (hv : (parseCitation s).valid = true)
    (ht : (parseCitation s).title = some tt)
    (hne : tt ≠ "")
    (hz : ∀ d ∈ db.docs, docScore (normalizeLookupL tt.data) d = 0) :
    validateCitation db s =
      { citation := parseCitation s, document_exists := false, provision_exists := false,
        warnings := ["Document \"" ++ tt ++ "\" not found in database"] } := by
  unfold validateCitation validateParsed
  rw [hv]
  have htt : titleOrEmpty (parseCitation s) = tt := by simp [titleOrEmpty, ht]
  rw [htt]
  have hbeq : (tt == "") = false := by simpa using hne
  rw [hbeq]
  have hle : (bestDocAux (normalizeLookupL tt.data) db.docs (-1) none).1 ≤ 0 :=
    bestDocAux_fst_le_zero _ _ _ _ hz (by norm_num)
  rw [if_neg (not_lt.mpr hle)]
  simp

/-- Claim C5 witness: a database holding only the Code pénal, against the
citation `"Code imaginaire, art. 1"`, whose title relates to no stored
field. -/
theorem validateCitation_all_scores_zero_witness :
    validateCitation ⟨[⟨"code-penal", "Code pénal", some "CP", "in_force"⟩], []⟩
        "Code imaginaire, art. 1" =
      { citation := parseCitation "Code imaginaire, art. 1", document_exists := false,
        provision_exists := false,
        warnings := ["Document \"Code imaginaire\" not found in database"] } :=
  validateCitation_all_scores_zero ⟨[⟨"code-penal", "Code pénal", some "CP", "in_force"⟩], []⟩
    "Code imaginaire, art. 1" "Code imaginaire" (by decide) (by decide) (by decide) (by decide)

/-- Claim C6: a valid parse with a non-empty title, no article token and
a positively-scoring stored document is accepted at document level: the
validator reports both the document and the provision as existing. -/
theorem validateParsed_no_section_provision_ok (db : Db) (p : ParsedCitation)
    (tt : String) (d0 : DocRow)
    (hv : p.valid = true)
    (ht : p.title = some tt)
    (hne : tt ≠ "")
    (hs : p.«section» = none)
    (hmem : d0 ∈ db.docs)
    (hpos : 0 < docScore (normalizeLookupL tt.data) d0) :
    (validateParsed db p).document_exists = true ∧
    (validateParsed db p).provision_exists = true := by
  unfold validateParsed
  rw [hv]
  have htt : titleOrEmpty p = tt := by simp [titleOrEmpty, ht]
  rw [htt]
  have hbeq : (tt == "") = false := by simpa using hne
  rw [hbeq]
  have h1 : (docScore (normalizeLookupL tt.data) d0 : Int) ≤
      (bestDocAux (normalizeLookupL tt.data) db.docs (-1) none).1 :=
    bestDocAux_fst_ge_score _ _ _ hmem _ _
  have h2 : 0 < (bestDocAux (normalizeLookupL tt.data) db.docs (-1) none).1 := by
    have : (0 : Int) < (docScore (normalizeLookupL tt.data) d0 : Int) := by exact_mod_cast hpos
    omega
  rw [if_pos h2]
  rcases hbd : (bestDocAux (normalizeLookupL tt.data) db.docs (-1) none).2 with - | doc
  · exfalso
    have := bestDocAux_none_fst _ _ _ hbd
    omega
  · simp [sectionVal, hs]

/-- Claim C6 witness: a document-level `ParsedCitation` for the Code
pénal (no section) against a database storing that code. -/
theorem validateParsed_no_section_provision_ok_witness :
    (validateParsed ⟨[⟨"code-penal", "Code pénal", some "CP", "in_force"⟩], []⟩
        ⟨true, "statute", some "Code pénal", none, none, none⟩).document_exists = true ∧
    (validateParsed ⟨[⟨"code-penal", "Code pénal", some "CP", "in_force"⟩], []⟩
        ⟨true, "statute", some "Code pénal", none, none, none⟩).provision_exists = true :=
  validateParsed_no_section_provision_ok
    ⟨[⟨"code-penal", "Code pénal", some "CP", "in_force"⟩], []⟩
    ⟨true, "statute", some "Code pénal", none, none, none⟩
    "Code pénal" ⟨"code-penal", "Code pénal", some "CP", "in_force"⟩
    (by decide) (by decide) (by decide) (by decide) (by decide) (by decide)

end FrenchLaw

namespace FrenchLaw

/-! Support lemmas for the token-grammar claims: character facts for the
grammar's character classes, and the decomposition of a `tokenB` match
into prefix and body. -/

theorem jsWs_ne_dot_star {x : Char} (h : jsWs x = true) : x ≠ '.' ∧ x ≠ '*' := by
  have hm := jsWs_toNat_mem h
  simp only [jsWsCodes, List.mem_cons, List.not_mem_nil, or_false] at hm
  have h46 : ('.').toNat = 46 := rfl
  have h42 : ('*').toNat = 42 := rfl
  exact ⟨char_ne_of_toNat_ne (by omega), char_ne_of_toNat_ne (by omega)⟩

theorem bodyChar_facts {c : Char} (h : digitB c = true ∨ c = '-' ∨ alnumB c = true) :
    jsWs c = false ∧ c ≠ '.' ∧ c ≠ '*' ∧ dotCharB c = true ∧ c.toNat < 192 := by
  have hrange : 42 ≤ c.toNat ∧ c.toNat ≤ 122 ∧ c.toNat ≠ 46 ∧ c.toNat ≠ 42 := by
    rcases h with h | rfl | h
    · have := digitB_toNat h
      omega
    · refine ⟨by decide, by decide, by decide, by decide⟩
    · rcases alnumB_toNat h with h | h | h <;> omega
  have h46 : ('.').toNat = 46 := rfl
  have h42 : ('*').toNat = 42 := rfl
  refine ⟨jsWs_false_of_ascii (by omega) (by omega),
    char_ne_of_toNat_ne (by omega), char_ne_of_toNat_ne (by omega), ?_, by omega⟩
  simp only [dotCharB, Bool.not_eq_true', Bool.or_eq_false_iff, beq_eq_false_iff_ne]
  refine ⟨⟨⟨?_, ?_⟩, ?_⟩, ?_⟩ <;> omega

theorem groupsAux_chars : ∀ (l : List Char) (needAl : Bool),
    groupsAux needAl l = true → ∀ c ∈ l, c = '-' ∨ alnumB c = true := by
  intro l
  induction l with
  | nil =>
    intro _ _ c hc
    cases hc
  | cons a r ih =>
    intro needAl h c hc
    unfold groupsAux at h
    by_cases ha : alnumB a = true
    · rw [if_pos ha] at h
      rcases List.mem_cons.mp hc with rfl | hc2
      · exact Or.inr ha
      · exact ih false h c hc2
    · rw [if_neg ha] at h
      by_cases hh : a == '-'
      · rw [if_pos hh] at h
        rcases List.mem_cons.mp hc with rfl | hc2
        · exact Or.inl (by simpa using hh)
        · rcases needAl with - | -
          · exact ih true h c hc2
          · cases h
      · rw [if_neg hh] at h
        cases h

theorem groupsB_chars : ∀ (l : List Char), groupsB l = true →
    ∀ c ∈ l, c = '-' ∨ alnumB c = true := by
  intro l h c hc
  rcases l with - | ⟨x, r⟩
  · cases hc
  · by_cases hx : x = '-'
    · subst hx
      rcases List.mem_cons.mp hc with rfl | hc2
      · exact Or.inl rfl
      · exact groupsAux_chars r true (by simpa [groupsB] using h) c hc2
    · exfalso
      unfold groupsB at h
      split at h
      next heq => cases heq
      next r2 heq =>
        rw [List.cons.injEq] at heq
        exact hx heq.1
      next => cases h

end FrenchLaw

namespace FrenchLaw

theorem bodyB_head {l : List Char} (h : bodyB l = true) :
    ∃ d r, l = d :: r ∧ digitB d = true := by
  unfold bodyB at h
  rcases Bool.and_eq_true_iff.mp h with ⟨h1, -⟩
  rcases l with - | ⟨d, r⟩
  · simp at h1
  · refine ⟨d, r, rfl, ?_⟩
    by_cases hd : digitB d = true
    · exact hd
    · rw [List.takeWhile_cons_of_neg (by simpa using hd)] at h1
      simp at h1

theorem bodyB_chars {l : List Char} (h : bodyB l = true) :
    ∀ c ∈ l, digitB c = true ∨ c = '-' ∨ alnumB c = true := by
  unfold bodyB at h
  rcases Bool.and_eq_true_iff.mp h with ⟨-, h2⟩
  intro c hc
  have hmem : c ∈ l.takeWhile digitB ++ l.dropWhile digitB := by
    rw [List.takeWhile_append_dropWhile]
    exact hc
  rcases List.mem_append.mp hmem with hc2 | hc2
  · exact Or.inl (List.mem_takeWhile_imp hc2)
  · rcases groupsB_chars _ h2 c hc2 with h3 | h3
    · exact Or.inr (Or.inl h3)
    · exact Or.inr (Or.inr h3)

theorem tokenB_decomp {t : List Char} (h : tokenB t = true) :
    bodyB t = true ∨
    ∃ (c : Char) (w1 body : List Char),
      alphaB c = true ∧ (∀ x ∈ w1, jsWs x = true) ∧ bodyB body = true ∧
      (t = c :: (w1 ++ body) ∨
       ∃ w2, (∀ x ∈ w2, jsWs x = true) ∧ t = c :: (w1 ++ '.' :: (w2 ++ body))) := by
  rcases t with - | ⟨c, r⟩
  · simp [tokenB] at h
  · rw [show tokenB (c :: r) =
        (if alphaB c then
          match r.dropWhile jsWs with
          | '.' :: r2 => bodyB (r2.dropWhile jsWs)
          | r1 => bodyB r1
        else bodyB (c :: r)) from rfl] at h
    by_cases hc : alphaB c = true
    · rw [if_pos hc] at h
      right
      rcases hdw : r.dropWhile jsWs with - | ⟨x, r2⟩
      · rw [hdw] at h
        simp [bodyB] at h
      · rw [hdw] at h
        have hr : r = r.takeWhile jsWs ++ (x :: r2) := by
          rw [← hdw, List.takeWhile_append_dropWhile]
        have hw1 : ∀ y ∈ r.takeWhile jsWs, jsWs y = true :=
          fun y hy => List.mem_takeWhile_imp hy
        by_cases hx : x = '.'
        · subst hx
          refine ⟨c, r.takeWhile jsWs, r2.dropWhile jsWs, hc, hw1, h, Or.inr ?_⟩
          refine ⟨r2.takeWhile jsWs, fun y hy => List.mem_takeWhile_imp hy, ?_⟩
          rw [List.takeWhile_append_dropWhile, ← hr]
        · refine ⟨c, r.takeWhile jsWs, x :: r2, hc, hw1, ?_, Or.inl (by rw [← hr])⟩
          split at h
          next heq =>
            rw [List.cons.injEq] at heq
            exact absurd heq.1 hx
          next => exact h
    · rw [if_neg hc] at h
      exact Or.inl h

end FrenchLaw

namespace FrenchLaw

theorem filter_ws_body {body : List Char} (hb : bodyB body = true) :
    body.filter (fun c => !jsWs c) = body :=
  List.filter_eq_self.mpr (fun a ha => by
    simp [(bodyChar_facts (bodyB_chars hb a ha)).1])

theorem filter_dot_body {body : List Char} (hb : bodyB body = true) :
    body.filter (fun c => !(c == '.')) = body :=
  List.filter_eq_self.mpr (fun a ha => by
    simp [(bodyChar_facts (bodyB_chars hb a ha)).2.1])

theorem map_upper_body {body : List Char} (hb : bodyB body = true)
    (hlow : ∀ x ∈ body, lowerB x = false) : body.map upperJs = body := by
  have h : ∀ x ∈ body, upperJs x = x := fun x hx =>
    upperJs_id (hlow x hx) (bodyChar_facts (bodyB_chars hb x hx)).2.2.2.2
  calc body.map upperJs = body.map id := List.map_congr_left h
    _ = body := List.map_id body

theorem alpha_char_facts {c : Char} (hc : alphaB c = true) :
    jsWs c = false ∧ c ≠ '.' ∧ c.toNat < 192 := by
  have h46 : ('.').toNat = 46 := rfl
  rcases alphaB_toNat hc with h | h
  · exact ⟨jsWs_false_of_ascii (by omega) (by omega), char_ne_of_toNat_ne (by omega), by omega⟩
  · exact ⟨jsWs_false_of_ascii (by omega) (by omega), char_ne_of_toNat_ne (by omega), by omega⟩

theorem ref_of_body {body : List Char} (hb : bodyB body = true)
    (hlow : ∀ x ∈ body, lowerB x = false) : normalizeArticleRefL body = body := by
  unfold normalizeArticleRefL
  rw [filter_ws_body hb, filter_dot_body hb, map_upper_body hb hlow]

theorem num_of_body {body : List Char} (hb : bodyB body = true) :
    normalizeArticleNumL body = body := by
  obtain ⟨d, r, rfl, hd⟩ := bodyB_head hb
  have hfacts : ∀ x ∈ d :: r, jsWs x = false ∧ x ≠ '.' ∧ x ≠ '*' := fun x hx =>
    ⟨(bodyChar_facts (bodyB_chars hb x hx)).1,
     (bodyChar_facts (bodyB_chars hb x hx)).2.1,
     (bodyChar_facts (bodyB_chars hb x hx)).2.2.1⟩
  have h1 : stripDotSep (d :: r) = d :: r := by
    rcases r with - | ⟨x, r2⟩
    · rfl
    · exact stripDotSep_of_ne r2 (hfacts x (by simp)).2.1
  have h2 : stripStarSep (d :: r) = d :: r := by
    rcases r with - | ⟨x, r2⟩
    · rfl
    · exact stripStarSep_of_ne r2 (hfacts x (by simp)).2.2
  unfold normalizeArticleNumL
  rw [h1, h2]
  rw [show removeWsL (d :: r) = d :: r from
    List.filter_eq_self.mpr (fun a ha => by simp [(hfacts a ha).1])]
  exact jsTrim_of_no_ws (fun x hx => (hfacts x hx).1)

theorem ref_pre_nodot {c : Char} {w1 body : List Char}
    (hc : alphaB c = true) (hlc : lowerB c = false)
    (hw1 : ∀ x ∈ w1, jsWs x = true) (hb : bodyB body = true)
    (hlow : ∀ x ∈ body, lowerB x = false) :
    normalizeArticleRefL (c :: (w1 ++ body)) = c :: body := by
  obtain ⟨hcw, hcd, hcn⟩ := alpha_char_facts hc
  have hfw : (c :: (w1 ++ body)).filter (fun x => !jsWs x) = c :: body := by
    rw [List.filter_cons_of_pos (by simp [hcw]), List.filter_append,
      show w1.filter (fun x => !jsWs x) = [] from
        List.filter_eq_nil_iff.mpr (fun a ha => by simp [hw1 a ha]),
      List.nil_append, filter_ws_body hb]
  have hfd : (c :: body).filter (fun x => !(x == '.')) = c :: body := by
    rw [List.filter_cons_of_pos (by simp [hcd]), filter_dot_body hb]
  have hmap : (c :: body).map upperJs = c :: body := by
    rw [List.map_cons, upperJs_id hlc hcn, map_upper_body hb hlow]
  unfold normalizeArticleRefL
  rw [hfw, hfd, hmap]

theorem ref_pre_dot {c : Char} {w2 body : List Char}
    (hc : alphaB c = true) (hlc : lowerB c = false)
    (hw2 : ∀ x ∈ w2, jsWs x = true) (hb : bodyB body = true)
    (hlow : ∀ x ∈ body, lowerB x = false) :
    normalizeArticleRefL (c :: '.' :: (w2 ++ body)) = c :: body := by
  obtain ⟨hcw, hcd, hcn⟩ := alpha_char_facts hc
  have hfw : (c :: '.' :: (w2 ++ body)).filter (fun x => !jsWs x) = c :: '.' :: body := by
    rw [List.filter_cons_of_pos (by simp [hcw]),
      List.filter_cons_of_pos (p := fun x => !jsWs x) (by decide), List.filter_append,
      show w2.filter (fun x => !jsWs x) = [] from
        List.filter_eq_nil_iff.mpr (fun a ha => by simp [hw2 a ha]),
      List.nil_append, filter_ws_body hb]
  have hfd : (c :: '.' :: body).filter (fun x => !(x == '.')) = c :: body := by
    rw [List.filter_cons_of_pos (by simp [hcd]),
      List.filter_cons_of_neg (p := fun x => !(x == '.')) (by simp), filter_dot_body hb]
  have hmap : (c :: body).map upperJs = c :: body := by
    rw [List.map_cons, upperJs_id hlc hcn, map_upper_body hb hlow]
  unfold normalizeArticleRefL
  rw [hfw, hfd, hmap]

theorem removeWs_pre {c : Char} {w body : List Char} (hcw : jsWs c = false)
    (hw : ∀ x ∈ w, jsWs x = true) (hb : bodyB body = true) :
    removeWsL (c :: (w ++ body)) = c :: body := by
  unfold removeWsL
  rw [List.filter_cons_of_pos (by simp [hcw]), List.filter_append,
    show w.filter (fun x => !jsWs x) = [] from
      List.filter_eq_nil_iff.mpr (fun a ha => by simp [hw a ha]),
    List.nil_append, filter_ws_body hb]

theorem num_pre_nodot {c : Char} {w1 body : List Char}
    (hc : alphaB c = true) (hw1 : ∀ x ∈ w1, jsWs x = true) (hb : bodyB body = true) :
    normalizeArticleNumL (c :: (w1 ++ body)) = c :: body := by
  obtain ⟨d, r, hbe, hd⟩ := bodyB_head hb
  obtain ⟨hcw, -, -⟩ := alpha_char_facts hc
  have hdfacts := bodyChar_facts (bodyB_chars hb d (by rw [hbe]; simp))
  have h1 : stripDotSep (c :: (w1 ++ body)) = c :: (w1 ++ body) := by
    rcases w1 with - | ⟨x, w1t⟩
    · rw [List.nil_append, hbe]
      exact stripDotSep_of_ne r hdfacts.2.1
    · rw [List.cons_append]
      exact stripDotSep_of_ne _ (jsWs_ne_dot_star (hw1 x (by simp))).1
  have h2 : stripStarSep (c :: (w1 ++ body)) = c :: (w1 ++ body) := by
    rcases w1 with - | ⟨x, w1t⟩
    · rw [List.nil_append, hbe]
      exact stripStarSep_of_ne r hdfacts.2.2.1
    · rw [List.cons_append]
      exact stripStarSep_of_ne _ (jsWs_ne_dot_star (hw1 x (by simp))).2
  unfold normalizeArticleNumL
  rw [h1, h2, removeWs_pre hcw hw1 hb]
  apply jsTrim_of_no_ws
  intro x hx
  rcases List.mem_cons.mp hx with rfl | hx2
  · exact hcw
  · exact (bodyChar_facts (bodyB_chars hb x hx2)).1

theorem num_pre_dot {c : Char} {w2 body : List Char}
    (hci : isLRDAci c = true) (hw2 : ∀ x ∈ w2, jsWs x = true) (hb : bodyB body = true) :
    normalizeArticleNumL (c :: '.' :: (w2 ++ body)) = c :: body := by
  obtain ⟨d, r, hbe, hd⟩ := bodyB_head hb
  have hcw : jsWs c = false := isLRDAci_not_ws hci
  have hdfacts := bodyChar_facts (bodyB_chars hb d (by rw [hbe]; simp))
  unfold normalizeArticleNumL
  rw [stripDotSep_pos _ hci, dropWhile_append_all hw2]
  rw [show body.dropWhile jsWs = body from by rw [hbe]; exact dropWhile_cons_neg hdfacts.1 r]
  rw [show stripStarSep (c :: body) = c :: body from by
    rw [hbe]; exact stripStarSep_of_ne r hdfacts.2.2.1]
  rw [show removeWsL (c :: body) = c :: body from by
    unfold removeWsL
    rw [List.filter_cons_of_pos (by simp [hcw]), filter_ws_body hb]]
  apply jsTrim_of_no_ws
  intro x hx
  rcases List.mem_cons.mp hx with rfl | hx2
  · exact hcw
  · exact (bodyChar_facts (bodyB_chars hb x hx2)).1

theorem dotCondB_dot_eval (c : Char) (r : List Char) :
    dotCondB (c :: '.' :: r) = (c == 'L' || c == 'R' || c == 'D' || c == 'A') := rfl

theorem dotCondB_of_ne {c x : Char} (r : List Char) (hx : x ≠ '.') :
    dotCondB (c :: x :: r) = !((c :: x :: r).contains '.') := by
  unfold dotCondB
  split
  next heq =>
    rw [List.cons.injEq, List.cons.injEq] at heq
    exact absurd heq.2.1 hx
  next => rfl

end FrenchLaw

namespace FrenchLaw

/-- Claim C4 counterexample: `"l. 2321-1"` is matched by the token
grammar, yet the parser's `normalizeArticleRef` (which uppercases)
disagrees on it with `normalizeArticleNum` (which keeps the letter's
case): `"L2321-1"` vs `"l2321-1"`. -/
theorem normalizeArticleRef_num_cex :
    tokenB "l. 2321-1".data = true ∧
    normalizeArticleRefL "l. 2321-1".data ≠ normalizeArticleNumL "l. 2321-1".data :=
  ⟨by decide, by decide⟩

/-- Claim C4 (amended): `normalizeArticleRef` and `normalizeArticleNum`
agree on every string matched by the token grammar that contains no
lowercase ASCII letter and in which any period immediately follows a
leading uppercase class letter L, R, D or A. -/
theorem normalizeArticleRef_eq_normalizeArticleNum (t : List Char)
    (htok : tokenB t = true)
    (hlow : t.all (fun c => !lowerB c) = true)
    (hdot : dotCondB t = true) :
    normalizeArticleRefL t = normalizeArticleNumL t := by
  have hl : ∀ c ∈ t, lowerB c = false := by
    intro c hc
    simpa using List.all_eq_true.mp hlow c hc
  rcases tokenB_decomp htok with hb | ⟨c, w1, body, hc, hw1, hb, hshape⟩
  · rw [ref_of_body hb (fun x hx => hl x hx), num_of_body hb]
  · rcases hshape with heq | ⟨w2, hw2, heq⟩
    · subst heq
      have hlc : lowerB c = false := hl c (by simp)
      have hlbody : ∀ x ∈ body, lowerB x = false := fun x hx => hl x (by simp [hx])
      rw [ref_pre_nodot hc hlc hw1 hb hlbody, num_pre_nodot hc hw1 hb]
    · rcases w1 with - | ⟨x, w1t⟩
      · simp only [List.nil_append] at heq
        subst heq
        rw [dotCondB_dot_eval] at hdot
        have hcs : c = 'L' ∨ c = 'R' ∨ c = 'D' ∨ c = 'A' := by
          simpa [or_assoc] using hdot
        have hci : isLRDAci c = true := by
          rcases hcs with rfl | rfl | rfl | rfl <;> decide
        have hca : alphaB c = true := by
          rcases hcs with rfl | rfl | rfl | rfl <;> decide
        have hlc : lowerB c = false := by
          rcases hcs with rfl | rfl | rfl | rfl <;> decide
        have hlbody : ∀ x ∈ body, lowerB x = false := fun x hx => hl x (by simp [hx])
        rw [ref_pre_dot hca hlc hw2 hb hlbody, num_pre_dot hci hw2 hb]
      · exfalso
        subst heq
        simp only [List.cons_append] at hdot
        have hxw : jsWs x = true := hw1 x (by simp)
        rw [dotCondB_of_ne _ (jsWs_ne_dot_star hxw).1] at hdot
        have hmem : ('.' : Char) ∈ c :: x :: (w1t ++ '.' :: (w2 ++ body)) := by simp
        have hcont : (c :: x :: (w1t ++ '.' :: (w2 ++ body))).contains '.' = true := by
          simp [List.contains, List.elem_iff]
        rw [hcont] at hdot
        simp at hdot

/-- Claim C4 witness: the amended agreement at the grammar token
`"L. 2321-1"`. -/
theorem normalizeArticleRef_eq_normalizeArticleNum_witness :
    tokenB "L. 2321-1".data = true ∧
    normalizeArticleRefL "L. 2321-1".data = normalizeArticleNumL "L. 2321-1".data :=
  ⟨by decide,
   normalizeArticleRef_eq_normalizeArticleNum "L. 2321-1".data (by decide) (by decide) (by decide)⟩

end FrenchLaw

namespace FrenchLaw

theorem isLRDAci_false_of_digit {c : Char} (h : digitB c = true) : isLRDAci c = false := by
  cases hi : isLRDAci c
  · rfl
  · rcases isLRDAci_cases hi with rfl | rfl | rfl | rfl | rfl | rfl | rfl | rfl <;>
      exact absurd h (by decide)

theorem upperB_false_of_digit {c : Char} (h : digitB c = true) : upperB c = false := by
  have := digitB_toNat h
  cases hu : upperB c
  · rfl
  · have := upperB_toNat hu
    omega

theorem leadCondB_cons (c : Char) (r : List Char) :
    leadCondB (c :: r) = (!alphaB c || (c == 'L' || c == 'R' || c == 'D' || c == 'A')) := rfl

/-- Claim C7 counterexample: on the grammar token `"B. 12"` the two
renderings disagree — `articleTitle` yields `"Article B.12"` (its prefix
match accepts only L/R/D/A and its normalizer does not drop the period
after `B`), while `"Article " ++ buildArticleRef` yields
`"Article B. 12"` (its prefix match accepts any capital letter). -/
theorem articleTitle_buildArticleRef_cex :
    tokenB "B. 12".data = true ∧
    articleTitleL "B. 12".data ≠ "Article ".data ++ buildArticleRefL "B. 12".data :=
  ⟨by decide, by decide⟩

/-- Claim C7 (amended): `articleTitle t` equals `"Article "` followed by
`buildArticleRef t` — the same prefix split and the same prefix-name
table — for every token-grammar string that contains no lowercase ASCII
letter, whose leading letter (if any) is an uppercase L, R, D or A, and
in which any period immediately follows that letter. -/
theorem articleTitle_eq_buildArticleRef (t : List Char)
    (htok : tokenB t = true)
    (hlow : t.all (fun c => !lowerB c) = true)
    (hdot : dotCondB t = true)
    (hlead : leadCondB t = true) :
    articleTitleL t = "Article ".data ++ buildArticleRefL t := by
  have hl : ∀ c ∈ t, lowerB c = false := by
    intro c hc
    simpa using List.all_eq_true.mp hlow c hc
  rcases tokenB_decomp htok with hb | ⟨c, w1, body, hc, hw1, hb, hshape⟩
  · obtain ⟨d, r, hbe, hd⟩ := bodyB_head hb
    have hnum := num_of_body hb
    have href := ref_of_body hb (fun x hx => hl x hx)
    unfold articleTitleL buildArticleRefL
    rw [hnum, href, hbe]
    rcases r with - | ⟨x, r2⟩
    · rfl
    · dsimp only
      rw [if_neg (by simp [isLRDAci_false_of_digit hd]),
        if_neg (by simp [upperB_false_of_digit hd])]
  · have hheadcs : ∀ (rest : List Char), t = c :: rest →
        c = 'L' ∨ c = 'R' ∨ c = 'D' ∨ c = 'A' := by
      intro rest hrest
      rw [hrest, leadCondB_cons] at hlead
      have : (c == 'L' || c == 'R' || c == 'D' || c == 'A') = true := by
        rcases Bool.or_eq_true_iff.mp hlead with h | h
        · rw [hc] at h
          cases h
        · exact h
      simpa [or_assoc] using this
    obtain ⟨d, r, hbe, hd⟩ := bodyB_head hb
    have hlbody : ∀ x ∈ body, lowerB x = false := by
      rcases hshape with heq | ⟨w2, hw2, heq⟩ <;> subst heq <;>
        exact fun x hx => hl x (by simp [hx])
    have hall : r.all dotCharB = true := List.all_eq_true.mpr (fun x hx =>
      (bodyChar_facts (bodyB_chars hb x (by rw [hbe]; exact List.mem_cons_of_mem _ hx))).2.2.2.1)
    rcases hshape with heq | ⟨w2, hw2, heq⟩
    · subst heq
      have hcs := hheadcs _ rfl
      have hci : isLRDAci c = true := by rcases hcs with rfl | rfl | rfl | rfl <;> decide
      have hlc : lowerB c = false := by rcases hcs with rfl | rfl | rfl | rfl <;> decide
      have hupper : upperB c = true := by rcases hcs with rfl | rfl | rfl | rfl <;> decide
      have hup_id : upperJs c = c := upperJs_id hlc (alpha_char_facts hc).2.2
      have hnum := num_pre_nodot hc hw1 hb
      have href := ref_pre_nodot hc hlc hw1 hb hlbody
      unfold articleTitleL buildArticleRefL
      rw [hnum, href, hbe]
      dsimp only
      rw [if_pos (by simp [hd, hci]), if_pos (by simp [hd, hall, hupper]), hup_id]
    · rcases w1 with - | ⟨x, w1t⟩
      · simp only [List.nil_append] at heq
        subst heq
        have hcs := hheadcs _ rfl
        have hci : isLRDAci c = true := by rcases hcs with rfl | rfl | rfl | rfl <;> decide
        have hlc : lowerB c = false := by rcases hcs with rfl | rfl | rfl | rfl <;> decide
        have hupper : upperB c = true := by rcases hcs with rfl | rfl | rfl | rfl <;> decide
        have hup_id : upperJs c = c := upperJs_id hlc (alpha_char_facts hc).2.2
        have hnum := num_pre_dot hci hw2 hb
        have href := ref_pre_dot hc hlc hw2 hb hlbody
        unfold articleTitleL buildArticleRefL
        rw [hnum, href, hbe]
        dsimp only
        rw [if_pos (by simp [hd, hci]), if_pos (by simp [hd, hall, hupper]), hup_id]
      · exfalso
        subst heq
        simp only [List.cons_append] at hdot
        have hxw : jsWs x = true := hw1 x (by simp)
        rw [dotCondB_of_ne _ (jsWs_ne_dot_star hxw).1] at hdot
        have hcont : (c :: x :: (w1t ++ '.' :: (w2 ++ body))).contains '.' = true := by
          simp [List.contains, List.elem_iff]
        rw [hcont] at hdot
        simp at hdot

/-- Claim C7 witness: the amended agreement at the grammar token
`"R. 2321-1"`: both sides render `"Article R. 2321-1"`. -/
theorem articleTitle_eq_buildArticleRef_witness :
    tokenB "R. 2321-1".data = true ∧
    articleTitleL "R. 2321-1".data = "Article ".data ++ buildArticleRefL "R. 2321-1".data :=
  ⟨by decide,
   articleTitle_eq_buildArticleRef "R. 2321-1".data (by decide) (by decide) (by decide) (by decide)⟩

end FrenchLaw
